import Mathlib

/-!
Verification of the pyfun generic-dispatch library against its specification.

The development shallowly embeds the parts of the source the claims are
about:

* the `Maybe` type with its `flatmap` / `unit` / `binop` / `empty`
  registrations and the `to_iter` / `from_iter` conversions
  (src/pyfun/maybe.py);
* the list instance of the monad operations (src/pyfun/iterable/list.py)
  and the generic `filter` for MonadPlus (src/pyfun/monad.py);
* the monad-derived `ap` and the `lift_n` combinator
  (src/pyfun/monad.py, src/pyfun/applicative.py);
* the argument binder with placeholders (`auto_bind_n` and the
  placeholder-aware partial application in src/pyfun/funcutils.py);
* the dispatch registry wrappers `resolve_with_fallback`,
  `dispatch_with_fallback`, the registration step and the
  `Monad.__subclasshook__` capability query
  (src/pyfun/funcutils.py, src/pyfun/monad.py).

The resolution algorithm of the underlying dispatcher lives in the external
`multipledispatch` dependency whose source is not part of the repository;
it is modelled from the specification (section 4.2) and the definitions
that do so say it in their doc comment.
-/

namespace PyFun

/-! ### The Maybe type (src/pyfun/maybe.py)

`Just` carries a value; `Nothing` carries none.  `Just.__eq__` compares the
wrapped values and `Nothing.__eq__` holds exactly of `Nothing`, which is the
structural equality of the inductive type below. -/

inductive Maybe (α : Type) where
  | Just (value : α)
  | Nothing
deriving DecidableEq, Repr

/-- Truthiness of a Maybe: `Just.__bool__` returns True, `Nothing.__bool__`
returns False. -/
def maybe_bool {α : Type} : Maybe α → Bool
  | .Just _ => true
  | .Nothing => false

/-- Embeds `_flatmap` registered for Maybe: `f(unwrap(x)) if x else x`. -/
def flatmap_maybe {α β : Type} (x : Maybe α) (f : α → Maybe β) : Maybe β :=
  match x with
  | .Just a => f a
  | .Nothing => .Nothing

/-- Embeds `_unit` registered for Maybe: `Just(a)`. -/
def unit_maybe {α : Type} (a : α) : Maybe α :=
  .Just a

/-- Embeds `_binop` registered for Maybe: `x or y`, which in Python returns
`x` when `bool(x)` is true and `y` otherwise. -/
def binop_maybe {α : Type} (x y : Maybe α) : Maybe α :=
  if maybe_bool x then x else y

/-- Embeds `_empty` registered for Maybe: `Nothing()`. -/
def empty_maybe {α : Type} : Maybe α :=
  .Nothing

/-- Embeds `to_iter`: an empty iterable for Nothing, otherwise the one-element
iterable holding the wrapped value. -/
def to_iter {α : Type} : Maybe α → List α
  | .Just a => [a]
  | .Nothing => []

/-- Embeds `from_iter`: `Just` of the first element of the iterable, or
`Nothing` when the iterable is empty. -/
def from_iter {α : Type} : List α → Maybe α
  | [] => .Nothing
  | a :: _ => .Just a

/-! ### The monad-derived `ap` and `lift_n` (src/pyfun/monad.py,
src/pyfun/applicative.py)

The `_ap` registered for monads is
`flatmap(Mf, lambda f: flatmap(Ma, lambda a: unit.resolve(type(Ma))(f(a))))`;
for a Maybe argument the resolved `unit` is `_unit`, i.e. `Just`.  `lift_n`
folds `ap` over the supplied arguments starting from `unit(f)`, so at arity
two the call unfolds to `ap(ap(unit(f), a1), a2)`; with no arguments it
invokes `f()` directly. -/

/-- Embeds `_ap` (the Applicative `ap` a monad gains from `flatmap`),
instantiated at the Maybe container. -/
def ap_monad_maybe {α β : Type} (Mf : Maybe (α → β)) (Ma : Maybe α) : Maybe β :=
  flatmap_maybe Mf fun f => flatmap_maybe Ma fun a => unit_maybe (f a)

/-- Embeds the `lifted` body of `lift_n` at arity two over Maybe:
`reduce(ap, args, unit(f))` unfolded for two arguments. -/
def lift_two_maybe {α β γ : Type} (f : α → β → γ) (Fa : Maybe α) (Fb : Maybe β) :
    Maybe γ :=
  ap_monad_maybe (ap_monad_maybe (unit_maybe f) Fa) Fb

/-- Embeds the `lifted` body of `lift_n` when zero arguments are supplied:
`f()` is invoked directly. -/
def lift_zero {γ : Type} (f : Unit → γ) : γ :=
  f ()

/-! ### The list instance and the MonadPlus `filter`
(src/pyfun/iterable/list.py, src/pyfun/monad.py) -/

/-- Embeds `flatmap` registered for list:
`functools.reduce(lambda xs, x: xs + f(x), xs, [])`. -/
def flatmap_list {α β : Type} (xs : List α) (f : α → List β) : List β :=
  xs.foldl (fun acc x => acc ++ f x) []

/-- Embeds `unit` registered for list: `[a]`. -/
def unit_list {α : Type} (a : α) : List α :=
  [a]

/-- Embeds `empty` registered for list: `[]`. -/
def empty_list {α : Type} : List α :=
  []

/-- Embeds the MonadPlus `filter` of src/pyfun/monad.py instantiated at list:
`flatmap(Ma, lambda a: unit.resolve(type(Ma))(a) if p(a) else
empty.resolve(type(Ma))())`, where the resolved `unit` and `empty` are the
list registrations. -/
def filter_mp {α : Type} (p : α → Bool) (xs : List α) : List α :=
  flatmap_list xs fun a => if p a then unit_list a else empty_list

/-! ### The dispatch registry (src/pyfun/funcutils.py and the external
dispatcher)

Python types are abstracted as an arbitrary type `T` of type identifiers
equipped with a boolean subtype test `sub` (`sub a b` meaning `a` is `b` or a
subclass of `b`), and implementations as an arbitrary type `Impl` of
implementation identifiers.  A registered signature is a list of type
identifiers, and a dispatcher state is its registration table together with
the fallback installed at creation time. -/

/-- Pointwise subtype comparison of two equal-length signatures:
`sigLE sub s1 s2` holds when `s1` is at least as specific as `s2` at every
position. -/
def sigLE {T : Type} (sub : T → T → Bool) : List T → List T → Bool
  | [], [] => true
  | a :: as, b :: bs => sub a b && sigLE sub as bs
  | _, _ => false

/-- A registered signature matches a tuple of runtime argument types when
every runtime type is a subtype of the registered type at its position. -/
def sigMatches {T : Type} (sub : T → T → Bool) (sig ts : List T) : Bool :=
  sigLE sub ts sig

/-- A dispatcher: the mutable registration table (list of signature,
implementation pairs) and the fallback installed at operation creation. -/
structure OpState (T Impl : Type) where
  table : List (List T × Impl)
  fallback : Impl
deriving DecidableEq, Repr

/-- Embeds the registration step (`register_with_annotations` calls
`dispatcher.register(*types)(impl)`): the pair is added to the table and
nothing is ever removed. -/
def registerImpl {T Impl : Type} (op : OpState T Impl) (sig : List T)
    (impl : Impl) : OpState T Impl :=
  OpState.mk ((sig, impl) :: op.table) op.fallback

/-- The registered signatures that match a tuple of runtime types. -/
def dispatchCands {T Impl : Type} (sub : T → T → Bool)
    (table : List (List T × Impl)) (ts : List T) : List (List T × Impl) :=
  table.filter fun e => sigMatches sub e.1 ts

/-- Modelled from the spec: the resolution algorithm of the external
`multipledispatch` dispatcher, whose source is not under src/.  Following
section 4.2: an exact match for the runtime types wins; otherwise, among all
matching registered signatures, the unique most-specific one (a signature
whose types are subtypes of every other candidate's at every position) wins;
if matches exist but no unique most-specific one, resolution fails with
`AmbiguousDispatch` (the `.error` case); if nothing matches, `none` is
returned so that the caller may fall back. -/
def dispatch {T Impl : Type} [DecidableEq T] (sub : T → T → Bool)
    (table : List (List T × Impl)) (ts : List T) : Except Unit (Option Impl) :=
  if (dispatchCands sub table ts).isEmpty then .ok none
  else
    match (dispatchCands sub table ts).find? (fun e => decide (e.1 = ts)) with
    | some e => .ok (some e.2)
    | none =>
      match (dispatchCands sub table ts).filter
          (fun e => (dispatchCands sub table ts).all fun e2 => sigLE sub e.1 e2.1) with
      | [e] => .ok (some e.2)
      | _ => .error ()

/-- Embeds `resolve_with_fallback` of src/pyfun/funcutils.py:
`dispatcher.dispatch(*types) or f` — the fallback is returned when the
dispatcher finds nothing; an ambiguity error propagates. -/
def resolve_with_fallback {T Impl : Type} [DecidableEq T] (sub : T → T → Bool)
    (op : OpState T Impl) (ts : List T) : Except Unit Impl :=
  match dispatch sub op.table ts with
  | .ok (some impl) => .ok impl
  | .ok none => .ok op.fallback
  | .error e => .error e

/-- Embeds `dispatch_with_fallback` of src/pyfun/funcutils.py: the dispatcher
is tried first and `NotImplementedError` (no match) routes the call to the
decorated function `f`; `app impl` stands for `impl(*args)` on the call's
arguments, whose runtime types are `ts`. -/
def dispatch_with_fallback {T Impl Res : Type} [DecidableEq T]
    (sub : T → T → Bool) (op : OpState T Impl) (ts : List T)
    (app : Impl → Res) : Except Unit Res :=
  match dispatch sub op.table ts with
  | .ok (some impl) => .ok (app impl)
  | .ok none => .ok (app op.fallback)
  | .error e => .error e

/-- A matching candidate with no strictly more specific matching candidate
below it, i.e. one of the most-specific signatures for the call. -/
def mostSpecific {T Impl : Type} [DecidableEq T] (sub : T → T → Bool)
    (table : List (List T × Impl)) (ts : List T) (e : List T × Impl) : Prop :=
  e ∈ dispatchCands sub table ts ∧
  ∀ e2 ∈ dispatchCands sub table ts,
    sigLE sub e2.1 e.1 = true → sigLE sub e.1 e2.1 = true

/-- The capability membership test derived from dispatch: a type satisfies an
operation when resolution finds a specific implementation that is not the
fallback (spec section 4.3). -/
def conformsOp {T Impl : Type} [DecidableEq T] [DecidableEq Impl]
    (sub : T → T → Bool) (op : OpState T Impl) (ts : List T) : Bool :=
  match dispatch sub op.table ts with
  | .ok (some impl) => decide (impl ≠ op.fallback)
  | _ => false

/-- A capability constituted by a list of operations, each queried at its own
signature for the type under test: the type satisfies the capability when
every constituent operation has a specific implementation for it. -/
def conformsCap {T Impl : Type} [DecidableEq T] [DecidableEq Impl]
    (sub : T → T → Bool) (ops : List (OpState T Impl × List T)) : Bool :=
  ops.all fun p => conformsOp sub p.1 p.2

/-- States reachable from a dispatcher state by registration steps only:
the table grows and the fallback never changes (nothing retracts a
registration). -/
inductive Reach {T Impl : Type} : OpState T Impl → OpState T Impl → Prop where
  | refl (op : OpState T Impl) : Reach op op
  | step (op op' : OpState T Impl) (sig : List T) (impl : Impl) :
      Reach op op' → Reach op (registerImpl op' sig impl)

/-- Embeds `Monad.__subclasshook__` of src/pyfun/monad.py:
`flatmap.resolve(other, collections.Callable) is not flatmap.default and
unit.resolve(other) is not None`, with Python's short-circuiting `and` and
with `resolve` being `resolve_with_fallback`.  The result of
`unit.resolve(other)` is an implementation, which as a Python object is
compared against None by the hook; `some u ≠ none` renders that comparison. -/
def monad_subclasshook {T Impl : Type} [DecidableEq T] [DecidableEq Impl]
    (sub : T → T → Bool) (flatmapOp unitOp : OpState T Impl)
    (other callableTy : T) : Except Unit Bool := do
  let fm ← resolve_with_fallback sub flatmapOp ([other, callableTy])
  if fm ≠ flatmapOp.fallback then
    let u ← resolve_with_fallback sub unitOp ([other])
    pure (decide ((some u : Option Impl) ≠ none))
  else
    pure false

/-! ### The argument binder (src/pyfun/funcutils.py)

A positional argument slot is either a concrete value or the placeholder
`_`, the anonymous sentinel object of the module. -/

inductive Arg (α : Type) where
  | val (a : α)
  | hole
deriving DecidableEq, Repr

/-- The concrete values among a list of argument slots. -/
def argVals {α : Type} : List (Arg α) → List α
  | [] => []
  | .val a :: rest => a :: argVals rest
  | .hole :: rest => argVals rest

/-- True when no placeholder occurs in the list. -/
def noHoles {α : Type} (l : List (Arg α)) : Bool :=
  l.all fun a =>
    match a with
    | .val _ => true
    | .hole => false

/-- Embeds the argument-merging loop shared by the placeholder-aware partial
application and the `backfill_args` closure of `auto_bind_n`: walk the bound
arguments from the left while newly supplied arguments remain, replacing
each placeholder with the next new argument and skipping slots bound to real
values, then append the leftover new arguments. -/
def backfill {α : Type} : List (Arg α) → List (Arg α) → List (Arg α)
  | [], args => args
  | b :: bs, [] => b :: bs
  | .hole :: bs, a :: as => a :: backfill bs as
  | .val v :: bs, args => .val v :: backfill bs args

/-- The three possible outcomes of one call to the function returned by
`auto_bind_n`: the wrapped function was invoked and its value returned, the
raw wrapped function itself was returned (call with nothing bound and no
arguments), or a new auto-bound function carrying the merged bound arguments
was returned. -/
inductive BindResult (α β : Type) where
  | ret (b : β)
  | funcItself
  | bindMore (bound : List (Arg α))
deriving DecidableEq, Repr

/-- Embeds the `backfill_args` closure of `auto_bind_n(n, f, bound)`: merge
the call's arguments into the bound ones; if at least `n` arguments are
available and none of the first `n` is a placeholder, invoke `f` on the
first `n` (arguments beyond the first `n` are dropped); otherwise, if
nothing at all was accumulated, return `f` itself; otherwise return the
auto-bound function with the merged arguments as its bound tuple. -/
def auto_bind_call {α β : Type} (n : Nat) (f : List α → β)
    (bound args : List (Arg α)) : BindResult α β :=
  let args_use := backfill bound args
  if n ≤ args_use.length ∧ noHoles (args_use.take n) = true then
    .ret (f (argVals (args_use.take n)))
  else if args_use.isEmpty then .funcItself
  else .bindMore args_use

/-- Embeds the call of the function returned by the placeholder-aware
partial application of src/pyfun/funcutils.py: the new arguments are merged
into the bound ones with the same loop and `f` is invoked on the result
unconditionally. -/
def papply {α β : Type} (f : List (Arg α) → β) (bound args : List (Arg α)) : β :=
  f (backfill bound args)

/-- A small concrete subtype relation used by the witnesses: type 0 plays the
role of `object` (every type is a subtype of it), and distinct nonzero types
are unrelated. -/
def subEx (a b : Nat) : Bool :=
  a == b || b == 0

/-! ### Helper lemmas -/

lemma subEx_refl : ∀ a, subEx a a = true := by
  intro a
  simp [subEx]

lemma subEx_trans :
    ∀ a b c, subEx a b = true → subEx b c = true → subEx a c = true := by
  intro a b c hab hbc
  simp only [subEx, Bool.or_eq_true, beq_iff_eq] at hab hbc ⊢
  rcases hbc with hbc | hc
  · rcases hab with hab | hb0
    · exact Or.inl (hab.trans hbc)
    · exact Or.inr (hbc ▸ hb0)
  · exact Or.inr hc

lemma backfill_nil_left {α : Type} (args : List (Arg α)) :
    backfill [] args = args := rfl

lemma backfill_val {α : Type} (v : α) (bs args : List (Arg α)) :
    backfill (Arg.val v :: bs) args = Arg.val v :: backfill bs args := by
  cases args with
  | nil =>
    cases bs with
    | nil => rfl
    | cons b bs2 =>
      cases b with
      | val w => rfl
      | hole => rfl
  | cons a as => rfl

lemma backfill_hole {α : Type} (bs : List (Arg α)) (a : Arg α)
    (as : List (Arg α)) :
    backfill (Arg.hole :: bs) (a :: as) = a :: backfill bs as := rfl

lemma backfill_map_val {α : Type} (l : List α) (args : List (Arg α)) :
    backfill (l.map Arg.val) args = l.map Arg.val ++ args := by
  induction l with
  | nil => rfl
  | cons x xs ih => simp [backfill_val, ih]

lemma noHoles_map_val {α : Type} (l : List α) :
    noHoles (l.map Arg.val) = true := by
  induction l with
  | nil => rfl
  | cons x xs _ => simp [noHoles]

lemma argVals_map_val {α : Type} (l : List α) :
    argVals (l.map Arg.val) = l := by
  induction l with
  | nil => rfl
  | cons x xs ih => simp [argVals, ih]

lemma foldl_append_eq {α β : Type} (f : α → List β) :
    ∀ (xs : List α) (acc : List β),
      xs.foldl (fun acc x => acc ++ f x) acc =
        acc ++ xs.foldl (fun acc x => acc ++ f x) [] := by
  intro xs
  induction xs with
  | nil => intro acc; simp
  | cons x xs ih =>
    intro acc
    simp only [List.foldl_cons]
    rw [ih (acc ++ f x), ih ([] ++ f x)]
    simp

lemma flatmap_list_cons {α β : Type} (f : α → List β) (x : α) (xs : List α) :
    flatmap_list (x :: xs) f = f x ++ flatmap_list xs f := by
  unfold flatmap_list
  simp only [List.foldl_cons]
  rw [foldl_append_eq]
  simp

lemma filter_mp_eq_filter {α : Type} (p : α → Bool) (xs : List α) :
    filter_mp p xs = xs.filter p := by
  induction xs with
  | nil => rfl
  | cons x xs ih =>
    unfold filter_mp at ih ⊢
    rw [flatmap_list_cons, ih]
    cases h : p x <;> simp [h, unit_list, empty_list, List.filter_cons]

lemma sigLE_refl {T : Type} (sub : T → T → Bool) (hrefl : ∀ a, sub a a = true) :
    ∀ l : List T, sigLE sub l l = true := by
  intro l
  induction l with
  | nil => rfl
  | cons x xs ih => simp [sigLE, hrefl x, ih]

lemma sigLE_trans {T : Type} (sub : T → T → Bool)
    (htrans : ∀ a b c, sub a b = true → sub b c = true → sub a c = true) :
    ∀ (a b c : List T), sigLE sub a b = true → sigLE sub b c = true →
      sigLE sub a c = true := by
  intro a
  induction a with
  | nil =>
    intro b c hab hbc
    cases b with
    | nil =>
      cases c with
      | nil => exact hbc
      | cons z zs => simp [sigLE] at hbc
    | cons y ys => simp [sigLE] at hab
  | cons x xs ih =>
    intro b c hab hbc
    cases b with
    | nil => simp [sigLE] at hab
    | cons y ys =>
      cases c with
      | nil => simp [sigLE] at hbc
      | cons z zs =>
        simp only [sigLE, Bool.and_eq_true] at hab hbc ⊢
        exact ⟨htrans x y z hab.1 hbc.1, ih ys zs hab.2 hbc.2⟩

lemma dispatch_no_match {T Impl : Type} [DecidableEq T] (sub : T → T → Bool)
    (table : List (List T × Impl)) (ts : List T)
    (hnone : ∀ e ∈ table, sigMatches sub e.1 ts = false) :
    dispatch sub table ts = .ok none := by
  have hc : dispatchCands sub table ts = [] := by
    apply List.filter_eq_nil_iff.mpr
    intro e he
    simp [hnone e he]
  unfold dispatch
  rw [hc]
  rfl

lemma dispatch_error_of {T Impl : Type} [DecidableEq T] (sub : T → T → Bool)
    (table : List (List T × Impl)) (ts : List T)
    (hne : dispatchCands sub table ts ≠ [])
    (hfind : (dispatchCands sub table ts).find? (fun e => decide (e.1 = ts)) = none)
    (hfil : (dispatchCands sub table ts).filter
        (fun e => (dispatchCands sub table ts).all fun e2 => sigLE sub e.1 e2.1) = []) :
    dispatch sub table ts = .error () := by
  have hemp : (dispatchCands sub table ts).isEmpty = false := by
    cases h : dispatchCands sub table ts with
    | nil => exact absurd h hne
    | cons c cs => rfl
  unfold dispatch
  rw [hemp, hfind, hfil]
  rfl

lemma dispatch_exact {T Impl : Type} [DecidableEq T] (sub : T → T → Bool)
    (table : List (List T × Impl)) (ts : List T) (e : List T × Impl)
    (hf : (dispatchCands sub table ts).find? (fun x => decide (x.1 = ts)) = some e) :
    dispatch sub table ts = .ok (some e.2) := by
  have hemp : (dispatchCands sub table ts).isEmpty = false := by
    cases h : dispatchCands sub table ts with
    | nil => rw [h] at hf; simp [List.find?] at hf
    | cons c cs => rfl
  unfold dispatch
  rw [hemp, hf]
  rfl

lemma Reach.mem_table {T Impl : Type} {op op' : OpState T Impl}
    (h : Reach op op') : ∀ e ∈ op.table, e ∈ op'.table := by
  induction h with
  | refl => intro e he; exact he
  | step op' sig impl h ih =>
    intro e he
    exact List.mem_cons_of_mem _ (ih e he)

lemma forall2_mem_right {α β : Type} {R : α → β → Prop} :
    ∀ {l1 : List α} {l2 : List β}, List.Forall₂ R l1 l2 →
      ∀ b ∈ l2, ∃ a ∈ l1, R a b := by
  intro l1 l2 h
  induction h with
  | nil => intro b hb; exact absurd hb (List.not_mem_nil b)
  | cons hr ht ih =>
    intro b hb
    rcases List.mem_cons.mp hb with rfl | hb2
    · exact ⟨_, List.mem_cons_self _ _, hr⟩
    · obtain ⟨a, ha, har⟩ := ih b hb2
      exact ⟨a, List.mem_cons_of_mem _ ha, har⟩

lemma conformsOp_of_exact {T Impl : Type} [DecidableEq T] [DecidableEq Impl]
    (sub : T → T → Bool) (hrefl : ∀ a, sub a a = true) (op : OpState T Impl)
    (ts : List T) (impl : Impl) (hmem : (ts, impl) ∈ op.table)
    (hnd : ∀ e ∈ op.table, e.2 ≠ op.fallback) :
    conformsOp sub op ts = true := by
  have hcmem : ((ts, impl) : List T × Impl) ∈ dispatchCands sub op.table ts :=
    List.mem_filter.mpr ⟨hmem, sigLE_refl sub hrefl ts⟩
  cases hf : (dispatchCands sub op.table ts).find? (fun x => decide (x.1 = ts)) with
  | none =>
    exfalso
    have := List.find?_eq_none.mp hf _ hcmem
    simp at this
  | some e =>
    have hemem : e ∈ dispatchCands sub op.table ts := List.mem_of_find?_eq_some hf
    have hetab : e ∈ op.table := (List.mem_filter.mp hemem).1
    unfold conformsOp
    rw [dispatch_exact sub op.table ts e hf]
    simp [hnd e hetab]

/-! ### Theorems for the claims -/

/-- C10: round-trip between Maybe and iterables: `from_iter(to_iter(x)) == x`
for every Maybe value, `to_iter` yields exactly the wrapped value for a Just
and nothing for a Nothing. -/
theorem C10_maybe_iter_roundtrip {α : Type} :
    (∀ x : Maybe α, from_iter (to_iter x) = x) ∧
    (∀ v : α, to_iter (Maybe.Just v) = [v]) ∧
    (to_iter (Maybe.Nothing : Maybe α) = []) := by
  refine ⟨?_, fun v => rfl, rfl⟩
  intro x
  cases x <;> rfl

/-- C9: Nothing, as produced by the registered `empty`, is a two-sided
identity for the registered `binop` on Maybe. -/
theorem C9_alternative_identity {α : Type} (Fa : Maybe α) :
    binop_maybe empty_maybe Fa = Fa ∧ binop_maybe Fa empty_maybe = Fa := by
  cases Fa <;> exact ⟨rfl, rfl⟩

/-- C8: the MonadPlus `filter` equals the flatmap-unit-empty formula using
the concrete type's own `unit` and `empty`, coincides with ordinary list
filtering, and filtering `[1, 2, 3, 4]` with an is-even predicate yields
`[2, 4]`. -/
theorem C8_filter_monadplus :
    (∀ (p : Nat → Bool) (xs : List Nat),
      filter_mp p xs =
        flatmap_list xs fun a => if p a then unit_list a else empty_list) ∧
    (∀ (p : Nat → Bool) (xs : List Nat), filter_mp p xs = xs.filter p) ∧
    (filter_mp (fun n => n % 2 == 0) [1, 2, 3, 4] = [2, 4]) := by
  refine ⟨fun p xs => rfl, fun p xs => filter_mp_eq_filter p xs, ?_⟩
  decide

/-- C7: `lift_n` at arity two computes `ap(ap(unit(f), a1), a2)` with the
monad-derived `ap`; with zero arguments it invokes `f()` directly; and for
the Maybe container `lift_n(2, add)` on `unit(2)` and `unit(3)` yields
`unit(5)`. -/
theorem C7_lift_n :
    (∀ {α β γ : Type} (f : α → β → γ) (a : α) (b : β),
      lift_two_maybe f (unit_maybe a) (unit_maybe b) = unit_maybe (f a b)) ∧
    (∀ {γ : Type} (f : Unit → γ), lift_zero f = f ()) ∧
    (∀ {α β γ : Type} (f : α → β → γ) (Fa : Maybe α) (Fb : Maybe β),
      lift_two_maybe f Fa Fb = ap_monad_maybe (ap_monad_maybe (unit_maybe f) Fa) Fb) ∧
    (lift_two_maybe (fun a b => a + b) (unit_maybe 2) (unit_maybe 3) = unit_maybe 5) := by
  exact ⟨fun f a b => rfl, fun f => rfl, fun f Fa Fb => rfl, rfl⟩

/-- C1: when no registered signature matches the runtime argument types,
`resolve` returns the fallback (the decorated function) without signalling
failure, and invoking the operation invokes that fallback. -/
theorem C1_fallback_resolution {T Impl Res : Type} [DecidableEq T]
    (sub : T → T → Bool) (op : OpState T Impl) (ts : List T) (app : Impl → Res)
    (hnone : ∀ e ∈ op.table, sigMatches sub e.1 ts = false) :
    resolve_with_fallback sub op ts = .ok op.fallback ∧
    dispatch_with_fallback sub op ts app = .ok (app op.fallback) := by
  have hd : dispatch sub op.table ts = .ok none :=
    dispatch_no_match sub op.table ts hnone
  constructor
  · unfold resolve_with_fallback
    rw [hd]
  · unfold dispatch_with_fallback
    rw [hd]

/-- Witness for C1 at a concrete dispatcher state: one registration that does
not match the queried types, so resolution and invocation use the fallback. -/
theorem C1_fallback_resolution_witness :
    resolve_with_fallback (fun a b : Nat => a == b || b == 0)
        (⟨[([1, 1], 10)], 99⟩ : OpState Nat Nat) [2, 3] = .ok 99 ∧
    dispatch_with_fallback (fun a b : Nat => a == b || b == 0)
        (⟨[([1, 1], 10)], 99⟩ : OpState Nat Nat) [2, 3] (fun i => i + 1) = .ok 100 := by
  exact C1_fallback_resolution (fun a b : Nat => a == b || b == 0)
    ⟨[([1, 1], 10)], 99⟩ [2, 3] (fun i => i + 1) (by decide)

/-- C2: when two incomparable registered signatures are both most-specific
for a call (and the subtype relation is a preorder), resolution fails with
the ambiguity error instead of silently selecting one implementation. -/
theorem C2_ambiguous_dispatch {T Impl : Type} [DecidableEq T]
    (sub : T → T → Bool)
    (htrans : ∀ a b c, sub a b = true → sub b c = true → sub a c = true)
    (table : List (List T × Impl)) (ts : List T) (e1 e2 : List T × Impl)
    (h1 : mostSpecific sub table ts e1) (h2 : mostSpecific sub table ts e2)
    (hinc : sigLE sub e1.1 e2.1 = false) :
    dispatch sub table ts = .error () := by
  obtain ⟨hmem1, hspec1⟩ := h1
  obtain ⟨hmem2, hspec2⟩ := h2
  have hts1 : sigLE sub ts e1.1 = true := (List.mem_filter.mp hmem1).2
  have hts2 : sigLE sub ts e2.1 = true := (List.mem_filter.mp hmem2).2
  apply dispatch_error_of
  · intro hnil
    rw [hnil] at hmem1
    exact List.not_mem_nil e1 hmem1
  · apply List.find?_eq_none.mpr
    intro e he hdec
    have heq : e.1 = ts := of_decide_eq_true hdec
    have h1e : sigLE sub e1.1 e.1 = true :=
      hspec1 e he (by rw [heq]; exact hts1)
    have habs : sigLE sub e1.1 e2.1 = true :=
      sigLE_trans sub htrans e1.1 e.1 e2.1 h1e (by rw [heq]; exact hts2)
    rw [hinc] at habs
    exact Bool.noConfusion habs
  · apply List.filter_eq_nil_iff.mpr
    intro e he hall
    have hle1 : sigLE sub e.1 e1.1 = true := List.all_eq_true.mp hall e1 hmem1
    have hle2 : sigLE sub e.1 e2.1 = true := List.all_eq_true.mp hall e2 hmem2
    have h1e : sigLE sub e1.1 e.1 = true := hspec1 e he hle1
    have habs : sigLE sub e1.1 e2.1 = true :=
      sigLE_trans sub htrans e1.1 e.1 e2.1 h1e hle2
    rw [hinc] at habs
    exact Bool.noConfusion habs

/-- Witness for C2: with object as type 0 and two incomparable signatures
`[1, 0]` and `[0, 1]` both matching the call types `[1, 1]`, dispatch reports
the ambiguity error. -/
theorem C2_ambiguous_dispatch_witness :
    dispatch subEx
      ([([1, 0], 10), ([0, 1], 20)] : List (List Nat × Nat)) [1, 1] = .error () := by
  exact C2_ambiguous_dispatch subEx subEx_trans
    [([1, 0], 10), ([0, 1], 20)] [1, 1] ([1, 0], 10) ([0, 1], 20)
    (by constructor
        · decide
        · decide)
    (by constructor
        · decide
        · decide)
    (by decide)

/-- C3 (code bug): `Monad.__subclasshook__` evaluated at a type with a
specific flatmap registration but no unit registration at all still returns
True: `unit.resolve(other)` is `resolve_with_fallback`, which returns the
fallback (never None) when nothing is registered, so the `is not None`
conjunct of the hook can never fail and the unit half of the documented
membership condition is not enforced. -/
theorem C3_subclasshook_unit_check_vacuous :
    monad_subclasshook subEx (OpState.mk [([1, 5], 10)] 99)
        (OpState.mk [] 77) 1 5 = .ok true ∧
    resolve_with_fallback subEx (OpState.mk ([] : List (List Nat × Nat)) 77) [1] =
      .ok 77 := by
  exact ⟨rfl, rfl⟩

/-- C4: capability membership is monotone: once every operation constituting
a capability has a non-fallback implementation registered at the queried
signature, the capability query answers true in that state and in every
state reachable from it by further registrations (registration is the only
mutation and nothing retracts it); and a capability queried when its
operations have no registrations at all answers false. -/
theorem C4_capability_monotone {T Impl : Type} [DecidableEq T] [DecidableEq Impl]
    (sub : T → T → Bool) (hrefl : ∀ a, sub a a = true)
    (ops ops' : List (OpState T Impl × List T))
    (hreach : List.Forall₂ (fun p q => Reach p.1 q.1 ∧ p.2 = q.2) ops ops')
    (hreg : ∀ p ∈ ops, ∃ impl, (p.2, impl) ∈ p.1.table)
    (hnd : ∀ q ∈ ops', ∀ e ∈ q.1.table, e.2 ≠ q.1.fallback)
    (ops0 : List (OpState T Impl × List T)) (h0len : ops0 ≠ [])
    (h0 : ∀ p ∈ ops0, p.1.table = []) :
    conformsCap sub ops' = true ∧ conformsCap sub ops0 = false := by
  constructor
  · apply List.all_eq_true.mpr
    intro q hq
    obtain ⟨p, hp, hpr, hps⟩ := forall2_mem_right hreach q hq
    obtain ⟨impl, hmem⟩ := hreg p hp
    have hmem2 : (q.2, impl) ∈ q.1.table := by
      rw [← hps]
      exact hpr.mem_table _ hmem
    exact conformsOp_of_exact sub hrefl q.1 q.2 impl hmem2 (hnd q hq)
  · cases ops0 with
    | nil => exact absurd rfl h0len
    | cons p ps =>
      have hp : p.1.table = [] := h0 p (List.mem_cons_self p ps)
      have hco : conformsOp sub p.1 p.2 = false := by
        unfold conformsOp
        have hd : dispatch sub p.1.table p.2 = .ok none := by
          rw [hp]
          rfl
        rw [hd]
      unfold conformsCap
      simp [hco]

/-- Witness for C4 at a concrete capability made of one operation: after an
exact registration for the queried signature, conformance holds in the
initial state's successor reached by one further registration, while an
operation with an empty table does not conform. -/
theorem C4_capability_monotone_witness :
    conformsCap subEx
      [(OpState.mk [([2], 6), ([3], 5)] 9, [3])] = true ∧
    conformsCap subEx
      [(OpState.mk ([] : List (List Nat × Nat)) 42, [7])] = false := by
  exact C4_capability_monotone subEx subEx_refl
    [(OpState.mk [([3], 5)] 9, [3])]
    [(OpState.mk [([2], 6), ([3], 5)] 9, [3])]
    (List.Forall₂.cons
      ⟨Reach.step (OpState.mk [([3], 5)] 9) (OpState.mk [([3], 5)] 9) [2] 6
        (Reach.refl (OpState.mk [([3], 5)] 9)), rfl⟩
      List.Forall₂.nil)
    (by
      intro p hp
      rw [List.mem_singleton] at hp
      subst hp
      exact ⟨5, by decide⟩)
    (by decide)
    [(OpState.mk ([] : List (List Nat × Nat)) 42, [7])]
    (by decide)
    (by decide)

/-- C5: the auto-bound function built by `auto_bind_n(n, f)` invokes `f` on
the first `n` arguments when given at least `n` concrete arguments, dropping
the excess; given fewer than `n` (but at least one) it returns a new
auto-bound function holding them, which invokes `f` once the remaining
arguments arrive; given none at all it returns `f` itself; and at `n == 0`
a call with no arguments invokes `f` immediately. -/
theorem C5_auto_bind_n (α β : Type) (n : Nat) (f : List α → β) :
    (∀ args : List α, n ≤ args.length →
      auto_bind_call n f [] (args.map Arg.val) = .ret (f (args.take n))) ∧
    (∀ args : List α, args ≠ [] → args.length < n →
      auto_bind_call n f [] (args.map Arg.val) = .bindMore (args.map Arg.val) ∧
      ∀ rest : List α, args.length + rest.length = n →
        auto_bind_call n f (args.map Arg.val) (rest.map Arg.val) =
          .ret (f (args ++ rest))) ∧
    (0 < n → auto_bind_call n f [] [] = .funcItself) ∧
    (auto_bind_call 0 f [] [] = .ret (f [])) := by
  have htake : ∀ (l : List α) (k : Nat),
      (l.map Arg.val).take k = (l.take k).map Arg.val := by
    intro l k
    exact (List.map_take Arg.val l k).symm
  refine ⟨?_, ?_, ?_, ?_⟩
  · intro args hge
    unfold auto_bind_call
    simp only [backfill_nil_left, htake, List.length_map]
    rw [if_pos ⟨hge, noHoles_map_val (args.take n)⟩, argVals_map_val]
  · intro args hne hlt
    constructor
    · unfold auto_bind_call
      simp only [backfill_nil_left, List.length_map]
      rw [if_neg (by intro hcon; exact absurd hcon.1 (Nat.not_le_of_lt hlt))]
      cases args with
      | nil => exact absurd rfl hne
      | cons a as => rfl
    · intro rest hsum
      unfold auto_bind_call
      have hmerge : backfill (args.map Arg.val) (rest.map Arg.val) =
          (args ++ rest).map Arg.val := by
        rw [backfill_map_val, List.map_append]
      simp only [hmerge, htake, List.length_map]
      have hlen : (args ++ rest).length = n := by
        rw [List.length_append]
        exact hsum
      rw [if_pos ⟨Nat.le_of_eq hlen.symm, noHoles_map_val ((args ++ rest).take n)⟩]
      rw [argVals_map_val]
      have : (args ++ rest).take n = args ++ rest := by
        rw [← hlen]
        exact List.take_length (args ++ rest)
      rw [this]
  · intro hn
    unfold auto_bind_call
    simp only [backfill_nil_left, List.length_nil]
    rw [if_neg (fun hcon => absurd hcon.1 (by omega))]
    rfl
  · rfl

/-- Witness for C5 at arity three with a list-summing function: saturation
with an excess argument invokes the sum on the first three, undersaturation
returns a new binder that completes later, and arity zero with no arguments
invokes immediately. -/
theorem C5_auto_bind_n_witness :
    auto_bind_call 3 (fun l : List Nat => l.sum) [] ([1, 2, 3, 4].map Arg.val) =
      .ret 6 ∧
    auto_bind_call 3 (fun l : List Nat => l.sum) [] ([1].map Arg.val) =
      .bindMore ([1].map Arg.val) ∧
    auto_bind_call 3 (fun l : List Nat => l.sum) ([1].map Arg.val)
        ([2, 3].map Arg.val) = .ret 6 ∧
    auto_bind_call 3 (fun l : List Nat => l.sum) [] [] = .funcItself ∧
    auto_bind_call 0 (fun l : List Nat => l.sum) [] [] = .ret 0 := by
  refine ⟨?_, ?_, ?_, ?_, ?_⟩
  · exact (C5_auto_bind_n Nat Nat 3 (fun l => l.sum)).1 [1, 2, 3, 4] (by decide)
  · exact ((C5_auto_bind_n Nat Nat 3 (fun l => l.sum)).2.1 [1] (by decide)
      (by decide)).1
  · exact (((C5_auto_bind_n Nat Nat 3 (fun l => l.sum)).2.1 [1] (by decide)
      (by decide)).2 [2, 3] (by decide))
  · exact (C5_auto_bind_n Nat Nat 3 (fun l => l.sum)).2.2.1 (by decide)
  · exact (C5_auto_bind_n Nat Nat 0 (fun l => l.sum)).2.2.2

/-- C6: placeholder merging in partial application: newly supplied
positional arguments fill placeholder positions left-to-right, skipping
positions bound to real values; with no placeholders the new arguments are
appended; the call invokes the wrapped function on the merged arguments; and
binding `(1, _, 3)` of a ternary add and then calling with `2` invokes
`add(1, 2, 3)` and returns `6`. -/
theorem C6_placeholder_merge (α : Type) :
    (∀ (vs : List α) (bs args : List (Arg α)) (a : Arg α),
      backfill (vs.map Arg.val ++ Arg.hole :: bs) (a :: args) =
        vs.map Arg.val ++ a :: backfill bs args) ∧
    (∀ (bound args : List (Arg α)), noHoles bound = true →
      backfill bound args = bound ++ args) ∧
    (∀ (β : Type) (f : List (Arg α) → β) (bound args : List (Arg α)),
      papply f bound args = f (backfill bound args)) ∧
    (papply (fun l => (argVals l).sum) [Arg.val 1, Arg.hole, Arg.val 3]
      [Arg.val 2] = 6) := by
  refine ⟨?_, ?_, fun β f bound args => rfl, rfl⟩
  · intro vs
    induction vs with
    | nil => intro bs args a; rfl
    | cons v vs ih =>
      intro bs args a
      simp only [List.map_cons, List.cons_append, backfill_val, ih]
  · intro bound
    induction bound with
    | nil => intro args h; rfl
    | cons b bs ih =>
      intro args h
      cases b with
      | hole => simp [noHoles] at h
      | val v =>
        rw [backfill_val, ih args (by simpa [noHoles] using h)]
        rfl

/-- Witness for C6 on concrete Nat argument lists: a placeholder after a
bound value is filled by the new argument, a fully bound tuple appends, and
the ternary-add example returns 6. -/
theorem C6_placeholder_merge_witness :
    backfill ([1].map Arg.val ++ Arg.hole :: [Arg.val 3]) [Arg.val 2] =
      [1].map Arg.val ++ Arg.val 2 :: backfill [Arg.val 3] [] ∧
    backfill [Arg.val 1, Arg.val 2] [Arg.val 3] =
      [Arg.val 1, Arg.val 2] ++ [Arg.val 3] ∧
    papply (fun l => (argVals l).sum) [Arg.val 1, Arg.hole, Arg.val 3]
      [Arg.val 2] = 6 := by
  exact ⟨(C6_placeholder_merge Nat).1 [1] [Arg.val 3] [] (Arg.val 2),
    (C6_placeholder_merge Nat).2.1 [Arg.val 1, Arg.val 2] [Arg.val 3] (by decide),
    (C6_placeholder_merge Nat).2.2.2⟩

end PyFun
